import Mathlib

set_option maxHeartbeats 1000000

/-! Shallow embedding of `analysis/coverage_data_utils.py` (fuzzbench coverage
data utilities).  Python dicts are modelled as association lists in insertion
order, Python sets as duplicate-free lists in insertion order, and fallible
operations (`KeyError`, `ValueError` from tuple unpacking) as `Option`. -/

section PyModel

variable {R : Type} [DecidableEq R]

/-- Model of a Python dict lookup `d[k]` on an association list; `none` models
a `KeyError`. -/
def alookup {κ β : Type} [DecidableEq κ] (k : κ) : List (κ × β) → Option β
  | [] => none
  | (k1, v) :: rest => if k1 = k then some v else alookup k rest

/-- Model of a Python dict assignment `d[k] = v`: replace the entry in place
when the key exists, otherwise append a new entry at the end. -/
def dictAssign {κ β : Type} [DecidableEq κ] (d : List (κ × β)) (k : κ) (v : β) : List (κ × β) :=
  match d with
  | [] => [(k, v)]
  | (k1, v1) :: rest => if k1 = k then (k1, v) :: rest else (k1, v1) :: dictAssign rest k v

/-- Model of Python `set.add` on a set represented as a duplicate-free list in
insertion order. -/
def setAdd (s : List R) (r : R) : List R := if r ∈ s then s else s ++ [r]

/-- Model of materializing a Python `set` from a list, as in
`for region in covered_regions: covered_regions_in_set.add(tuple(region))`. -/
def toPySet (l : List R) : List R := l.foldl setAdd []

/-- Number of occurrences of `a` in `s` (counting loop used in the lemmas). -/
def countOcc {α : Type} [DecidableEq α] (a : α) (s : List α) : Nat :=
  s.countP (fun x => decide (x = a))

/-- Python whitespace class used by `str.split()` (the CPython unicode-type
whitespace table): the ASCII characters 0x09-0x0D, the separator controls
0x1C-0x1F, the space 0x20, then 0x85, 0xA0, and the Unicode space
separators. -/
def isPySpace (c : Char) : Bool :=
  decide (c.toNat ∈ ([0x09, 0x0A, 0x0B, 0x0C, 0x0D, 0x1C, 0x1D, 0x1E, 0x1F, 0x20,
    0x85, 0xA0, 0x1680, 0x2000, 0x2001, 0x2002, 0x2003, 0x2004, 0x2005, 0x2006,
    0x2007, 0x2008, 0x2009, 0x200A, 0x2028, 0x2029, 0x202F, 0x205F, 0x3000] : List Nat))

/-- Worker for Python `str.split()`: accumulate the current token (reversed) and
emit tokens at whitespace runs, dropping empty tokens. -/
def pySplitGo : List Char → List Char → List (List Char)
  | [], acc => if acc = [] then [] else [acc.reverse]
  | c :: cs, acc =>
    if isPySpace c then
      if acc = [] then pySplitGo cs [] else acc.reverse :: pySplitGo cs []
    else pySplitGo cs (c :: acc)

/-- Model of Python `str.split()` with no arguments: split on whitespace runs,
leading/trailing whitespace ignored, no empty tokens. -/
def pySplit (s : String) : List String := (pySplitGo s.data []).map (fun cs => String.mk cs)

/-- Model of `posixpath.join` restricted to two components: if the second is
absolute it wins; otherwise a `/` separator is inserted unless the first
component is empty or already ends with `/`. -/
def pjoin2 (a b : String) : String :=
  if b.data.head? = some '/' then b
  else if a.data = [] ∨ a.data.getLast? = some '/' then a ++ b
  else a ++ "/" ++ b

end PyModel

section SourceFunctions

variable {R : Type} [DecidableEq R]

/-- Source `get_fuzzer_benchmark_key`: `return fuzzer + ' ' + benchmark`. -/
def get_fuzzer_benchmark_key (fuzzer benchmark : String) : String :=
  fuzzer ++ " " ++ benchmark

/-- Source `get_experiment_filestore_path`, with the pandas column extraction
abstracted to its two string results (the experiment filestore root and the
experiment name); the body is `posixpath.join(filestore_path, exp_name)`. -/
def get_experiment_filestore_path (filestore_path exp_name : String) : String :=
  pjoin2 filestore_path exp_name

/-- Source `get_coverage_report_filestore_path`, with the dataframe filtering
abstracted as in `get_experiment_filestore_path`: joins the experiment
filestore path with `coverage/reports/<benchmark>/<fuzzer>/index.html`. -/
def get_coverage_report_filestore_path (filestore_path exp_name benchmark fuzzer : String) :
    String :=
  pjoin2 (pjoin2 (pjoin2 (pjoin2 (pjoin2 (get_experiment_filestore_path filestore_path exp_name)
    "coverage") "reports") benchmark) fuzzer) "index.html"

/-- The `src_file` computed inside `get_fuzzer_covered_regions`:
`posixpath.join(filestore, 'coverage', 'data', benchmark, fuzzer, 'covered_regions.json')`. -/
def covered_regions_src_file (filestore benchmark fuzzer : String) : String :=
  pjoin2 (pjoin2 (pjoin2 (pjoin2 (pjoin2 filestore "coverage") "data") benchmark) fuzzer)
    "covered_regions.json"

/-- The `dst_file` computed inside `get_fuzzer_covered_regions`:
`os.path.join(temp_dir, '<fuzzer>-<benchmark>-coverage.json')`. -/
def coverage_dst_file (temp_dir fuzzer benchmark : String) : String :=
  pjoin2 temp_dir (fuzzer ++ "-" ++ benchmark ++ "-coverage.json")

/-- Source `get_fuzzer_covered_regions`.  The collaborator `filestore_utils.cp`
is modelled by its return code `cp src dst`, and opening plus JSON-parsing the
downloaded file by `readJson`; a non-zero return code yields the empty result. -/
def get_fuzzer_covered_regions (cp : String → String → Int) (readJson : String → List R)
    (fuzzer benchmark filestore temp_dir : String) : List R :=
  if cp (covered_regions_src_file filestore benchmark fuzzer)
      (coverage_dst_file temp_dir fuzzer benchmark) ≠ 0 then []
  else readJson (coverage_dst_file temp_dir fuzzer benchmark)

/-- The fixed `threshold_count = 1` of `get_unique_region_dict`. -/
def threshold_count : Nat := 1

/-- One step of `region_dict[region].append(fuzzer)` on a
`collections.defaultdict(list)`: a fresh key is appended at the end with the
singleton list, an existing key gets the fuzzer appended to its list. -/
def addOwner (region_dict : List (R × List String)) (region : R) (fuzzer : String) :
    List (R × List String) :=
  match region_dict with
  | [] => [(region, [fuzzer])]
  | (r, fs) :: rest =>
    if r = region then (r, fs ++ [fuzzer]) :: rest
    else (r, fs) :: addOwner rest region fuzzer

/-- The `region_dict` built by the first loop of `get_unique_region_dict`. -/
def buildRegionDict (benchmark_coverage_dict : List (String × List R)) :
    List (R × List String) :=
  benchmark_coverage_dict.foldl
    (fun rd p => p.2.foldl (fun rd2 region => addOwner rd2 region p.1) rd) []

/-- Source `get_unique_region_dict`: keep the regions whose covering-fuzzer
list has length at most `threshold_count`. -/
def get_unique_region_dict (benchmark_coverage_dict : List (String × List R)) :
    List (R × List String) :=
  (buildRegionDict benchmark_coverage_dict).filter
    (fun p => decide (p.2.length ≤ threshold_count))

/-- One step of `fuzzers[fuzzer] += 1` on a `collections.defaultdict(int)`. -/
def incCount (c : List (String × Nat)) (f : String) : List (String × Nat) :=
  match c with
  | [] => [(f, 1)]
  | (k, n) :: rest => if k = f then (k, n + 1) :: rest else (k, n) :: incCount rest f

/-- The `fuzzers` counter built by the first loop of `get_unique_region_cov_df`. -/
def buildFuzzerCounter (unique_region_dict : List (R × List String)) : List (String × Nat) :=
  unique_region_dict.foldl (fun c p => p.2.foldl incCount c) []

/-- Source `get_unique_region_cov_df`: the resulting dataframe is modelled as
the list of its rows `(fuzzer, unique_regions_covered)` in order; reading the
counter through the `defaultdict(int)` gives `0` for absent fuzzers. -/
def get_unique_region_cov_df (unique_region_dict : List (R × List String))
    (fuzzer_names : List String) : List (String × Nat) :=
  fuzzer_names.map (fun fuzzer =>
    (fuzzer, (alookup fuzzer (buildFuzzerCounter unique_region_dict)).getD 0))

/-- Loop of `get_benchmark_cov_dict`; `none` models the `ValueError` raised by
`current_fuzzer, current_benchmark = key_pair.split()` when the key does not
split into exactly two tokens. -/
def covDictGo (benchmark : String) (acc : List (String × List R)) :
    List (String × List R) → Option (List (String × List R))
  | [] => some acc
  | (key_pair, covered_regions) :: rest =>
    match pySplit key_pair with
    | [current_fuzzer, current_benchmark] =>
      covDictGo benchmark
        (if current_benchmark = benchmark then
          dictAssign acc current_fuzzer (toPySet covered_regions)
        else acc) rest
    | _ => none

/-- Source `get_benchmark_cov_dict`. -/
def get_benchmark_cov_dict (coverage_dict : List (String × List R)) (benchmark : String) :
    Option (List (String × List R)) :=
  covDictGo benchmark [] coverage_dict

/-- Loop of `get_benchmark_aggregated_cov_df`; the dataframe's two parallel
column lists are modelled as a list of `(fuzzer, aggregated_edges_covered)`
rows appended in order.  Note the source appends `len(covered_regions)` of the
raw value, not the size of a deduplicated set. -/
def aggGo (benchmark : String) (acc : List (String × Nat)) :
    List (String × List R) → Option (List (String × Nat))
  | [] => some acc
  | (key_pair, covered_regions) :: rest =>
    match pySplit key_pair with
    | [current_fuzzer, current_benchmark] =>
      aggGo benchmark
        (if current_benchmark = benchmark then
          acc ++ [(current_fuzzer, covered_regions.length)]
        else acc) rest
    | _ => none

/-- Source `get_benchmark_aggregated_cov_df`. -/
def get_benchmark_aggregated_cov_df (coverage_dict : List (String × List R))
    (benchmark : String) : Option (List (String × Nat)) :=
  aggGo benchmark [] coverage_dict

/-- Source `get_unique_covered_percentage`: count the regions of the column
fuzzer that are not covered by the row fuzzer. -/
def get_unique_covered_percentage (fuzzer_row_covered_regions fuzzer_col_covered_regions :
    List R) : Nat :=
  fuzzer_col_covered_regions.countP (fun region => decide (region ∉ fuzzer_row_covered_regions))

/-- The labelled dataframe returned by `get_pairwise_unique_coverage_table`:
row labels, column labels, and the matrix of values. -/
structure PairwiseTable where
  index : List String
  columns : List String
  values : List (List Nat)
  deriving DecidableEq

/-- Inner loop of `get_pairwise_unique_coverage_table`, building one row;
`none` models the `KeyError` raised by `benchmark_coverage_dict[...]` when a
fuzzer is absent from the dict. -/
def pairwiseRow (benchmark_coverage_dict : List (String × List R)) (fuzzer_in_row : String) :
    List String → Option (List Nat)
  | [] => some []
  | fuzzer_in_col :: rest =>
    match alookup fuzzer_in_row benchmark_coverage_dict,
        alookup fuzzer_in_col benchmark_coverage_dict with
    | some rowRegions, some colRegions =>
      match pairwiseRow benchmark_coverage_dict fuzzer_in_row rest with
      | some vs => some (get_unique_covered_percentage rowRegions colRegions :: vs)
      | none => none
    | _, _ => none

/-- Outer loop of `get_pairwise_unique_coverage_table`. -/
def pairwiseRows (benchmark_coverage_dict : List (String × List R)) (fuzzers : List String) :
    List String → Option (List (List Nat))
  | [] => some []
  | fuzzer_in_row :: rest =>
    match pairwiseRow benchmark_coverage_dict fuzzer_in_row fuzzers,
        pairwiseRows benchmark_coverage_dict fuzzers rest with
    | some row, some rows => some (row :: rows)
    | _, _ => none

/-- Source `get_pairwise_unique_coverage_table`: the resulting dataframe has
the fuzzer list as both index and columns. -/
def get_pairwise_unique_coverage_table (benchmark_coverage_dict : List (String × List R))
    (fuzzers : List String) : Option PairwiseTable :=
  (pairwiseRows benchmark_coverage_dict fuzzers fuzzers).map
    (fun vals => ⟨fuzzers, fuzzers, vals⟩)

end SourceFunctions

section SpecSide

variable {R : Type} [DecidableEq R]

/-- The list of fuzzers whose region set covers `r`, in dict order (the
spec's "list of fuzzers covering it"). -/
def coveringFuzzers (benchmark_coverage_dict : List (String × List R)) (r : R) : List String :=
  (benchmark_coverage_dict.filter (fun p => decide (r ∈ p.2))).map Prod.fst

/-- Decoding of a fuzzer-benchmark key by whitespace splitting, exactly as the
unpacking `current_fuzzer, current_benchmark = key_pair.split()` does in
`get_benchmark_cov_dict`; `none` models the `ValueError`. -/
def decode_fuzzer_benchmark_key (key : String) : Option (String × String) :=
  match pySplit key with
  | [current_fuzzer, current_benchmark] => some (current_fuzzer, current_benchmark)
  | _ => none

/-- Concatenation of all owner lists of a unique-region index, in order. -/
def ownersConcat (unique_region_dict : List (R × List String)) : List String :=
  unique_region_dict.foldr (fun p acc => p.2 ++ acc) []

/-- The fuzzers covering `r`, listed with multiplicity (one occurrence per
occurrence of `r` in the fuzzer's region list). -/
def ownersWithMult (benchmark_coverage_dict : List (String × List R)) (r : R) : List String :=
  benchmark_coverage_dict.foldr (fun p acc => List.replicate (countOcc r p.2) p.1 ++ acc) []

end SpecSide

section BasicLemmas

variable {R : Type} [DecidableEq R]

lemma string_mk_data (s : String) : String.mk s.data = s := rfl

lemma string_data_append (a b : String) : (a ++ b).data = a.data ++ b.data := rfl

lemma string_ext {a b : String} (h : a.data = b.data) : a = b := String.ext h

lemma string_append_assoc (a b c : String) : (a ++ b) ++ c = a ++ (b ++ c) := by
  apply string_ext
  simp [string_data_append]

lemma pySplitGo_no_space (l : List Char) (acc : List Char)
    (h : ∀ c ∈ l, isPySpace c = false) :
    pySplitGo l acc = if acc.reverse ++ l = [] then [] else [acc.reverse ++ l] := by
  induction l generalizing acc with
  | nil => simp [pySplitGo]
  | cons c cs ih =>
    have hc : isPySpace c = false := h c (by simp)
    have hcs : ∀ x ∈ cs, isPySpace x = false := fun x hx => h x (by simp [hx])
    rw [pySplitGo, hc]
    simp only [Bool.false_eq_true, if_false]
    rw [ih _ hcs]
    simp [List.append_assoc]

lemma pySplitGo_append (l m : List Char) (acc : List Char)
    (hl : ∀ c ∈ l, isPySpace c = false) :
    pySplitGo (l ++ ' ' :: m) acc =
      (if acc.reverse ++ l = [] then [] else [acc.reverse ++ l]) ++ pySplitGo m [] := by
  induction l generalizing acc with
  | nil =>
    have hsp : isPySpace ' ' = true := by decide
    by_cases hacc : acc = []
    · subst hacc
      simp [pySplitGo, hsp]
    · have h2 : acc.reverse ≠ [] := by simpa using hacc
      simp [pySplitGo, hsp, hacc, h2]
  | cons c cs ih =>
    have hc : isPySpace c = false := hl c (by simp)
    have hcs : ∀ x ∈ cs, isPySpace x = false := fun x hx => hl x (by simp [hx])
    rw [List.cons_append, pySplitGo, hc]
    simp only [Bool.false_eq_true, if_false]
    rw [ih _ hcs]
    simp [List.append_assoc]

lemma pySplit_key (f b : String) (hf : f.data ≠ []) (hb : b.data ≠ [])
    (hfw : ∀ c ∈ f.data, isPySpace c = false) (hbw : ∀ c ∈ b.data, isPySpace c = false) :
    pySplit (f ++ " " ++ b) = [f, b] := by
  have hdata : (f ++ " " ++ b).data = f.data ++ ' ' :: b.data := by
    simp [string_data_append]
  unfold pySplit
  rw [hdata, pySplitGo_append _ _ _ hfw, pySplitGo_no_space _ _ hbw]
  simp [hf, hb, string_mk_data]

lemma alookup_eq_none_of_not_mem_keys {κ β : Type} [DecidableEq κ]
    {l : List (κ × β)} {k : κ} (h : k ∉ l.map Prod.fst) : alookup k l = none := by
  induction l with
  | nil => rfl
  | cons p rest ih =>
    simp only [List.map_cons, List.mem_cons] at h
    push_neg at h
    rw [alookup, if_neg (fun hh => h.1 hh.symm), ih h.2]

lemma alookup_mem {κ β : Type} [DecidableEq κ]
    {l : List (κ × β)} {k : κ} {v : β} (h : alookup k l = some v) : (k, v) ∈ l := by
  induction l with
  | nil => simp [alookup] at h
  | cons p rest ih =>
    obtain ⟨k1, v1⟩ := p
    rw [alookup] at h
    by_cases hk : k1 = k
    · rw [if_pos hk] at h
      subst hk
      obtain rfl : v1 = v := by simpa using h
      exact List.mem_cons_self _ _
    · rw [if_neg hk] at h
      exact List.mem_cons_of_mem _ (ih h)

end BasicLemmas

section CounterLemmas

variable {R : Type} [DecidableEq R]

/-- Reading a counter dict with `defaultdict(int)` semantics: absent keys read 0. -/
def alookupN (k : String) (c : List (String × Nat)) : Nat := (alookup k c).getD 0

lemma countOcc_cons {α : Type} [DecidableEq α] (g a : α) (t : List α) :
    countOcc g (a :: t) = countOcc g t + (if a = g then 1 else 0) := by
  simp [countOcc, List.countP_cons]

lemma countOcc_append {α : Type} [DecidableEq α] (g : α) (s t : List α) :
    countOcc g (s ++ t) = countOcc g s + countOcc g t := by
  simp [countOcc]

lemma countOcc_eq_zero {α : Type} [DecidableEq α] {g : α} {s : List α} (h : g ∉ s) :
    countOcc g s = 0 := by
  induction s with
  | nil => simp [countOcc]
  | cons a t ih =>
    have ha : ¬ a = g := fun hh => h (hh ▸ List.mem_cons_self a t)
    rw [countOcc_cons, ih (fun hm => h (List.mem_cons_of_mem _ hm)), if_neg ha]

lemma countOcc_of_nodup {α : Type} [DecidableEq α] {s : List α} (h : s.Nodup) (g : α) :
    countOcc g s = if g ∈ s then 1 else 0 := by
  induction s with
  | nil => simp [countOcc]
  | cons a t ih =>
    rcases List.nodup_cons.mp h with ⟨hat, ht⟩
    rw [countOcc_cons, ih ht]
    by_cases hg : a = g
    · subst hg
      simp [hat]
    · have hg2 : ¬ g = a := fun hh => hg hh.symm
      by_cases hmem : g ∈ t
      · simp [hmem, hg, List.mem_cons, hg2]
      · simp [hmem, hg, List.mem_cons, hg2]

lemma alookupN_incCount (g f : String) (c : List (String × Nat)) :
    alookupN g (incCount c f) = alookupN g c + (if g = f then 1 else 0) := by
  induction c with
  | nil =>
    by_cases hg : f = g
    · subst hg
      simp [alookupN, incCount, alookup]
    · have hg2 : ¬ g = f := fun h => hg h.symm
      simp [alookupN, incCount, alookup, hg, hg2]
  | cons p rest ih =>
    obtain ⟨k, n⟩ := p
    by_cases hk : k = f
    · by_cases hkg : k = g
      · have hgf : g = f := hkg.symm.trans hk
        simp [alookupN, incCount, alookup, hk, hkg, hgf]
      · have hgf : ¬ g = f := fun h => hkg (hk.trans h.symm)
        have hfg : ¬ f = g := fun h => hgf h.symm
        simp [alookupN, incCount, alookup, hk, hkg, hgf, hfg]
    · by_cases hkg : k = g
      · have hgf : ¬ g = f := fun h => hk (hkg.trans h)
        simp [alookupN, incCount, alookup, hk, hkg, hgf]
      · simpa [alookupN, incCount, alookup, hk, hkg] using ih

lemma alookupN_foldl_incCount (s : List String) (g : String) (c : List (String × Nat)) :
    alookupN g (s.foldl incCount c) = alookupN g c + countOcc g s := by
  induction s generalizing c with
  | nil => simp [countOcc]
  | cons a t ih =>
    rw [List.foldl_cons, ih, alookupN_incCount, countOcc_cons]
    have hif : (if g = a then (1:Nat) else 0) = (if a = g then 1 else 0) := by
      by_cases h : a = g
      · rw [if_pos h, if_pos h.symm]
      · rw [if_neg h, if_neg (fun hh => h hh.symm)]
    rw [hif]
    omega

lemma ownersConcat_cons (p : R × List String) (rest : List (R × List String)) :
    ownersConcat (p :: rest) = p.2 ++ ownersConcat rest := rfl

lemma alookupN_buildFuzzerCounter (urd : List (R × List String)) (g : String) :
    alookupN g (buildFuzzerCounter urd) = countOcc g (ownersConcat urd) := by
  suffices h : ∀ c, alookupN g (urd.foldl (fun c p => p.2.foldl incCount c) c)
      = alookupN g c + countOcc g (ownersConcat urd) by
    have h0 := h []
    simpa [buildFuzzerCounter, alookupN, alookup] using h0
  induction urd with
  | nil =>
    intro c
    simp [ownersConcat, countOcc]
  | cons p rest ih =>
    intro c
    rw [List.foldl_cons, ih, alookupN_foldl_incCount, ownersConcat_cons, countOcc_append]
    omega

lemma covdf_eq_map_countOcc (urd : List (R × List String)) (names : List String) :
    get_unique_region_cov_df urd names =
      names.map (fun f => (f, countOcc f (ownersConcat urd))) := by
  unfold get_unique_region_cov_df
  apply List.map_congr_left
  intro f _
  rw [← alookupN_buildFuzzerCounter]
  rfl

lemma countOcc_ownersConcat (urd : List (R × List String)) (f : String)
    (h : ∀ p ∈ urd, p.2.Nodup) :
    countOcc f (ownersConcat urd) = (urd.filter (fun p => decide (f ∈ p.2))).length := by
  induction urd with
  | nil => simp [ownersConcat, countOcc]
  | cons p rest ih =>
    have hp : p.2.Nodup := h p (by simp)
    have hrest : ∀ q ∈ rest, q.2.Nodup := fun q hq => h q (by simp [hq])
    rw [ownersConcat_cons, countOcc_append, ih hrest, countOcc_of_nodup hp]
    by_cases hmem : f ∈ p.2
    · simp [List.filter_cons, hmem]
      omega
    · simp [List.filter_cons, hmem]

lemma mem_ownersConcat {urd : List (R × List String)} {x : String}
    (h : x ∈ ownersConcat urd) : ∃ p ∈ urd, x ∈ p.2 := by
  induction urd with
  | nil => simp [ownersConcat] at h
  | cons p rest ih =>
    rw [ownersConcat_cons, List.mem_append] at h
    rcases h with h | h
    · exact ⟨p, by simp, h⟩
    · rcases ih h with ⟨q, hq, hx⟩
      exact ⟨q, by simp [hq], hx⟩

lemma length_ownersConcat (urd : List (R × List String)) :
    (ownersConcat urd).length = (urd.map (fun p => p.2.length)).sum := by
  induction urd with
  | nil => rfl
  | cons p rest ih =>
    rw [ownersConcat_cons]
    simp [ih]

lemma sum_map_add {α : Type} (l : List α) (f g : α → Nat) :
    (l.map (fun x => f x + g x)).sum = (l.map f).sum + (l.map g).sum := by
  induction l with
  | nil => rfl
  | cons a t ih =>
    simp only [List.map_cons, List.sum_cons, ih]
    omega

lemma sum_map_zero_of_not_mem {x : String} {t : List String} (h : x ∉ t) :
    (t.map (fun f => if x = f then (1:Nat) else 0)).sum = 0 := by
  induction t with
  | nil => rfl
  | cons a t ih =>
    have hxa : ¬ x = a := fun hh => h (hh ▸ List.mem_cons_self a t)
    simp [hxa, ih (fun hm => h (List.mem_cons_of_mem _ hm))]

lemma sum_map_indicator {x : String} : ∀ {names : List String}, names.Nodup → x ∈ names →
    (names.map (fun f => if x = f then (1:Nat) else 0)).sum = 1 := by
  intro names
  induction names with
  | nil =>
    intro _ hx
    simp at hx
  | cons a t ih =>
    intro hnd hx
    rcases List.nodup_cons.mp hnd with ⟨hat, ht⟩
    by_cases hxa : x = a
    · subst hxa
      rw [List.map_cons, List.sum_cons, if_pos rfl, sum_map_zero_of_not_mem hat]
    · have hxt : x ∈ t := by
        rcases List.mem_cons.mp hx with h | h
        · exact absurd h hxa
        · exact h
      rw [List.map_cons, List.sum_cons, if_neg hxa, ih ht hxt]

lemma sum_counts_eq_length {names : List String} (hnd : names.Nodup) :
    ∀ (L : List String), (∀ y ∈ L, y ∈ names) →
      (names.map (fun f => countOcc f L)).sum = L.length := by
  intro L
  induction L with
  | nil =>
    intro _
    have h0 : names.map (fun f => countOcc f ([] : List String)) = names.map (fun _ => 0) := by
      simp [countOcc]
    rw [h0]
    simp
  | cons y t ih =>
    intro hall
    have hy : y ∈ names := hall y (by simp)
    have ht : ∀ z ∈ t, z ∈ names := fun z hz => hall z (by simp [hz])
    have hmap : names.map (fun f => countOcc f (y :: t)) =
        names.map (fun f => countOcc f t + (if y = f then 1 else 0)) := by
      apply List.map_congr_left
      intro f _
      rw [countOcc_cons]
    rw [hmap, sum_map_add, ih ht, sum_map_indicator hnd hy]
    simp [List.length_cons]

end CounterLemmas

section RegionDictLemmas

variable {R : Type} [DecidableEq R]

lemma alookup_addOwner (rd : List (R × List String)) (region : R) (f : String) (r : R) :
    alookup r (addOwner rd region f) =
      if r = region then some ((alookup r rd).getD [] ++ [f]) else alookup r rd := by
  induction rd with
  | nil =>
    by_cases h : r = region
    · subst h
      simp [addOwner, alookup]
    · have h2 : ¬ region = r := fun hh => h hh.symm
      simp [addOwner, alookup, h, h2]
  | cons p rest ih =>
    obtain ⟨r1, fs⟩ := p
    by_cases h1 : r1 = region
    · subst h1
      by_cases hr : r1 = r
      · subst hr
        simp [addOwner, alookup]
      · have hr2 : ¬ r = r1 := fun hh => hr hh.symm
        simp [addOwner, alookup, hr, hr2]
    · by_cases hr : r1 = r
      · subst hr
        simp [addOwner, alookup, h1]
      · simp [addOwner, alookup, h1, hr, ih]

lemma alookup_foldl_addOwner (s : List R) (f : String) :
    ∀ (rd : List (R × List String)) (r : R),
      alookup r (s.foldl (fun rd2 region => addOwner rd2 region f) rd) =
        if countOcc r s = 0 then alookup r rd
        else some ((alookup r rd).getD [] ++ List.replicate (countOcc r s) f) := by
  induction s with
  | nil =>
    intro rd r
    simp [countOcc]
  | cons a t ih =>
    intro rd r
    rw [List.foldl_cons, ih, countOcc_cons]
    simp only [alookup_addOwner]
    by_cases ha : a = r
    · have har : r = a := ha.symm
      rw [if_pos ha, if_pos har]
      by_cases hct : countOcc r t = 0
      · rw [hct]
        simp
      · rw [if_neg hct]
        have h1 : ¬ (countOcc r t + 1 = 0) := by omega
        rw [if_neg h1]
        congr 1
        simp [List.replicate_succ, List.append_assoc]
    · have har : ¬ r = a := fun hh => ha hh.symm
      rw [if_neg ha, if_neg har]
      simp

lemma ownersWithMult_cons (p : String × List R) (rest : List (String × List R)) (r : R) :
    ownersWithMult (p :: rest) r =
      List.replicate (countOcc r p.2) p.1 ++ ownersWithMult rest r := rfl

lemma alookup_buildRegionDict_general (d : List (String × List R)) (r : R) :
    ∀ rd, alookup r
        (d.foldl (fun rd p => p.2.foldl (fun rd2 region => addOwner rd2 region p.1) rd) rd) =
      if ownersWithMult d r = [] then alookup r rd
      else some ((alookup r rd).getD [] ++ ownersWithMult d r) := by
  induction d with
  | nil =>
    intro rd
    simp [ownersWithMult]
  | cons p rest ih =>
    intro rd
    rw [List.foldl_cons, ih, ownersWithMult_cons]
    simp only [alookup_foldl_addOwner]
    by_cases hc : countOcc r p.2 = 0
    · rw [hc]
      simp
    · have hrep : List.replicate (countOcc r p.2) p.1 ≠ [] := by
        intro hh
        rw [List.replicate_eq_nil_iff] at hh
        exact hc hh
      by_cases hrest : ownersWithMult rest r = []
      · simp [hc, hrest, hrep]
      · have hne : List.replicate (countOcc r p.2) p.1 ++ ownersWithMult rest r ≠ [] := by
          simp [hrep]
        simp [hc, hrest, hne, List.append_assoc]

lemma alookup_buildRegionDict (d : List (String × List R)) (r : R) :
    alookup r (buildRegionDict d) =
      if ownersWithMult d r = [] then none else some (ownersWithMult d r) := by
  have h := alookup_buildRegionDict_general d r []
  simpa [buildRegionDict, alookup] using h

lemma ownersWithMult_eq_coveringFuzzers (d : List (String × List R)) (r : R)
    (h : ∀ p ∈ d, p.2.Nodup) :
    ownersWithMult d r = coveringFuzzers d r := by
  induction d with
  | nil => rfl
  | cons p rest ih =>
    have hp := h p (by simp)
    have hrest : ∀ q ∈ rest, q.2.Nodup := fun q hq => h q (by simp [hq])
    rw [ownersWithMult_cons, countOcc_of_nodup hp, ih hrest]
    by_cases hm : r ∈ p.2
    · simp [coveringFuzzers, List.filter_cons, hm]
    · simp [coveringFuzzers, List.filter_cons, hm]

lemma keys_addOwner (rd : List (R × List String)) (region : R) (f : String) :
    (addOwner rd region f).map Prod.fst =
      if region ∈ rd.map Prod.fst then rd.map Prod.fst
      else rd.map Prod.fst ++ [region] := by
  induction rd with
  | nil => simp [addOwner]
  | cons p rest ih =>
    obtain ⟨r1, fs⟩ := p
    by_cases h1 : r1 = region
    · subst h1
      simp [addOwner]
    · have h2 : ¬ region = r1 := fun hh => h1 hh.symm
      by_cases hm : region ∈ rest.map Prod.fst
      · simp [addOwner, h1, ih, hm, List.mem_cons, h2]
      · simp [addOwner, h1, ih, hm, List.mem_cons, h2]

lemma keysNodup_addOwner {rd : List (R × List String)} {region : R} {f : String}
    (h : (rd.map Prod.fst).Nodup) : ((addOwner rd region f).map Prod.fst).Nodup := by
  rw [keys_addOwner]
  by_cases hm : region ∈ rd.map Prod.fst
  · simp [hm, h]
  · simp [hm, List.nodup_append, h]

lemma keysNodup_foldl_addOwner (s : List R) (f : String) :
    ∀ rd : List (R × List String), (rd.map Prod.fst).Nodup →
      ((s.foldl (fun rd2 region => addOwner rd2 region f) rd).map Prod.fst).Nodup := by
  induction s with
  | nil =>
    intro rd h
    exact h
  | cons a t ih =>
    intro rd h
    rw [List.foldl_cons]
    exact ih _ (keysNodup_addOwner h)

lemma keysNodup_buildRegionDict (d : List (String × List R)) :
    ((buildRegionDict d).map Prod.fst).Nodup := by
  suffices h : ∀ rd : List (R × List String), (rd.map Prod.fst).Nodup →
      ((d.foldl (fun rd p => p.2.foldl (fun rd2 region => addOwner rd2 region p.1) rd) rd).map
        Prod.fst).Nodup by
    exact h [] (by simp)
  induction d with
  | nil =>
    intro rd h
    exact h
  | cons p rest ih =>
    intro rd h
    rw [List.foldl_cons]
    exact ih _ (keysNodup_foldl_addOwner _ _ _ h)

lemma snd_ne_nil_addOwner {rd : List (R × List String)} {region : R} {f : String}
    (h : ∀ p ∈ rd, p.2 ≠ []) : ∀ p ∈ addOwner rd region f, p.2 ≠ [] := by
  induction rd with
  | nil =>
    intro p hp
    simp [addOwner] at hp
    subst hp
    simp
  | cons q rest ih =>
    obtain ⟨r1, fs⟩ := q
    intro p hp
    by_cases h1 : r1 = region
    · simp [addOwner, h1] at hp
      rcases hp with h2 | h2
      · subst h2
        simp
      · exact h p (List.mem_cons_of_mem _ h2)
    · simp [addOwner, h1] at hp
      rcases hp with h2 | h2
      · subst h2
        exact h (r1, fs) (by simp)
      · exact ih (fun q hq => h q (List.mem_cons_of_mem _ hq)) p h2

lemma snd_ne_nil_foldl_addOwner (s : List R) (f : String) :
    ∀ rd : List (R × List String), (∀ p ∈ rd, p.2 ≠ []) →
      ∀ p ∈ s.foldl (fun rd2 region => addOwner rd2 region f) rd, p.2 ≠ [] := by
  induction s with
  | nil =>
    intro rd h
    exact h
  | cons a t ih =>
    intro rd h
    rw [List.foldl_cons]
    exact ih _ (snd_ne_nil_addOwner h)

lemma snd_ne_nil_buildRegionDict (d : List (String × List R)) :
    ∀ p ∈ buildRegionDict d, p.2 ≠ [] := by
  suffices h : ∀ rd : List (R × List String), (∀ p ∈ rd, p.2 ≠ []) →
      ∀ p ∈ d.foldl (fun rd p => p.2.foldl (fun rd2 region => addOwner rd2 region p.1) rd) rd,
        p.2 ≠ [] by
    exact h [] (by simp)
  induction d with
  | nil =>
    intro rd h
    exact h
  | cons p rest ih =>
    intro rd h
    rw [List.foldl_cons]
    exact ih _ (snd_ne_nil_foldl_addOwner _ _ _ h)

lemma alookup_filter {κ β : Type} [DecidableEq κ] (q : κ × β → Bool) :
    ∀ (l : List (κ × β)) (k : κ), (l.map Prod.fst).Nodup →
      alookup k (l.filter q) =
        (alookup k l).bind (fun v => if q (k, v) then some v else none) := by
  intro l
  induction l with
  | nil =>
    intro k _
    rfl
  | cons p rest ih =>
    intro k hnd
    obtain ⟨k1, v1⟩ := p
    have hnd2 : (k1 :: rest.map Prod.fst).Nodup := by simpa using hnd
    rcases List.nodup_cons.mp hnd2 with ⟨hk1, hrest⟩
    by_cases hq : q (k1, v1) = true
    · rw [List.filter_cons_of_pos hq]
      by_cases hk : k1 = k
      · subst hk
        simp [alookup, hq]
      · simp [alookup, hk, ih _ hrest]
    · rw [List.filter_cons_of_neg (by simpa using hq)]
      by_cases hk : k1 = k
      · subst hk
        have hnone : alookup k1 (rest.filter q) = none := by
          apply alookup_eq_none_of_not_mem_keys
          intro hmem
          apply hk1
          rcases List.mem_map.mp hmem with ⟨pp, hpp, hfst⟩
          exact List.mem_map.mpr ⟨pp, (List.mem_filter.mp hpp).1, hfst⟩
        simp [alookup, hq, hnone]
      · simp [alookup, hk, ih _ hrest]

lemma unique_region_dict_lookup (d : List (String × List R)) (r : R)
    (hsets : ∀ p ∈ d, p.2.Nodup) :
    alookup r (get_unique_region_dict d) =
      if (coveringFuzzers d r).length = 1 then some (coveringFuzzers d r) else none := by
  unfold get_unique_region_dict
  rw [alookup_filter _ _ _ (keysNodup_buildRegionDict d)]
  rw [alookup_buildRegionDict, ownersWithMult_eq_coveringFuzzers d r hsets]
  by_cases hnil : coveringFuzzers d r = []
  · simp [hnil]
  · rw [if_neg hnil]
    have hpos : 0 < (coveringFuzzers d r).length := List.length_pos.mpr hnil
    by_cases h1 : (coveringFuzzers d r).length = 1
    · simp [threshold_count, h1]
    · have hle : ¬ ((coveringFuzzers d r).length ≤ 1) := by omega
      simp [threshold_count, hle, h1]

end RegionDictLemmas

section PairwiseLemmas

variable {R : Type} [DecidableEq R]

lemma gucp_self (X : List R) : get_unique_covered_percentage X X = 0 := by
  unfold get_unique_covered_percentage
  rw [List.countP_eq_zero]
  intro a ha
  simp [ha]

lemma gucp_eq_sdiff_card (A B : List R) (hB : B.Nodup) :
    get_unique_covered_percentage A B = (B.toFinset \ A.toFinset).card := by
  unfold get_unique_covered_percentage
  rw [List.countP_eq_length_filter]
  have hfil : (B.filter (fun region => decide (region ∉ A))).Nodup := hB.filter _
  rw [← List.toFinset_card_of_nodup hfil]
  congr 1
  ext x
  simp [List.mem_toFinset, List.mem_filter, Finset.mem_sdiff]

lemma pairwiseRow_eq_map (d : List (String × List R)) (frow : String) (A : List R)
    (hA : alookup frow d = some A) :
    ∀ cols : List String, (∀ fc ∈ cols, (alookup fc d).isSome) →
      pairwiseRow d frow cols =
        some (cols.map (fun fc =>
          get_unique_covered_percentage A ((alookup fc d).getD []))) := by
  intro cols
  induction cols with
  | nil =>
    intro _
    rfl
  | cons fc rest ih =>
    intro h
    obtain ⟨B, hB⟩ := Option.isSome_iff_exists.mp (h fc (by simp))
    rw [pairwiseRow, hA, hB, ih (fun x hx => h x (by simp [hx]))]
    simp [hB]

lemma pairwiseRows_eq_map (d : List (String × List R)) (fuzzers : List String)
    (hall : ∀ f ∈ fuzzers, (alookup f d).isSome) :
    ∀ rows : List String, (∀ f ∈ rows, (alookup f d).isSome) →
      pairwiseRows d fuzzers rows =
        some (rows.map (fun frow => fuzzers.map (fun fc =>
          get_unique_covered_percentage ((alookup frow d).getD [])
            ((alookup fc d).getD [])))) := by
  intro rows
  induction rows with
  | nil =>
    intro _
    rfl
  | cons frow rest ih =>
    intro h
    obtain ⟨A, hA⟩ := Option.isSome_iff_exists.mp (h frow (by simp))
    rw [pairwiseRows, pairwiseRow_eq_map d frow A hA fuzzers hall,
      ih (fun x hx => h x (by simp [hx]))]
    simp [hA]

lemma getD_map_lt {α β : Type} (l : List α) (g : α → β) (i : Nat) (dα : α) (dβ : β)
    (h : i < l.length) : (l.map g).getD i dβ = g (l.getD i dα) := by
  induction l generalizing i with
  | nil => simp at h
  | cons a t ih =>
    cases i with
    | zero => simp
    | succ n =>
      simp only [List.map_cons, List.getD_cons_succ]
      exact ih n (by simpa using h)

lemma getD_mem_of_lt {α : Type} (l : List α) (i : Nat) (d : α) (h : i < l.length) :
    l.getD i d ∈ l := by
  induction l generalizing i with
  | nil => simp at h
  | cons a t ih =>
    cases i with
    | zero => simp
    | succ n =>
      simp only [List.getD_cons_succ]
      exact List.mem_cons_of_mem _ (ih n (by simpa using h))

lemma pairwiseRow_none_of_missing (d : List (String × List R)) (frow : String) :
    ∀ cols : List String, ∀ f ∈ cols, alookup f d = none →
      pairwiseRow d frow cols = none := by
  intro cols
  induction cols with
  | nil =>
    intro f hf
    simp at hf
  | cons c rest ih =>
    intro f hf hnone
    rcases List.mem_cons.mp hf with h | h
    · subst h
      rw [pairwiseRow, hnone]
      cases alookup frow d <;> rfl
    · cases hA : alookup frow d with
      | none => simp [pairwiseRow, hA]
      | some A =>
        cases hB : alookup c d with
        | none => simp [pairwiseRow, hA, hB]
        | some B => simp [pairwiseRow, hA, hB, ih f h hnone]

lemma pairwise_table_none_of_missing (d : List (String × List R)) (fuzzers : List String)
    (f : String) (hf : f ∈ fuzzers) (hnone : alookup f d = none) :
    get_pairwise_unique_coverage_table d fuzzers = none := by
  unfold get_pairwise_unique_coverage_table
  cases fuzzers with
  | nil => simp at hf
  | cons a rest =>
    rw [pairwiseRows, pairwiseRow_none_of_missing d a (a :: rest) f hf hnone]
    rfl

end PairwiseLemmas

section PathLemmas

lemma pjoin2_eq (a b : String) (hb : b.data.head? ≠ some '/')
    (ha : a.data ≠ []) (ha2 : a.data.getLast? ≠ some '/') :
    pjoin2 a b = a ++ "/" ++ b := by
  unfold pjoin2
  rw [if_neg hb, if_neg]
  intro h
  rcases h with h | h
  · exact ha h
  · exact ha2 h

lemma seg_data (a b : String) : (a ++ "/" ++ b).data = a.data ++ '/' :: b.data := by
  simp [string_data_append]

lemma seg_ne_nil (a b : String) : (a ++ "/" ++ b).data ≠ [] := by
  rw [seg_data]
  simp

lemma getLast?_append_right {α : Type} (l1 l2 : List α) (h : l2 ≠ []) :
    (l1 ++ l2).getLast? = l2.getLast? := by
  rw [List.getLast?_append]
  cases hl : l2.getLast? with
  | none =>
    rw [List.getLast?_eq_none_iff] at hl
    exact absurd hl h
  | some a => rfl

lemma seg_getLast (a b : String) (hb : b.data ≠ []) :
    (a ++ "/" ++ b).data.getLast? = b.data.getLast? := by
  rw [seg_data]
  have h : a.data ++ '/' :: b.data = (a.data ++ ['/']) ++ b.data := by simp
  rw [h, getLast?_append_right _ _ hb]

lemma pjoin2_tail (a b : String) (ha : a.data ≠ []) (ha2 : a.data.getLast? ≠ some '/')
    (hb1 : b.data ≠ []) (hb2 : b.data.head? ≠ some '/') :
    pjoin2 a b = a ++ "/" ++ b ∧ (pjoin2 a b).data ≠ [] ∧
      (pjoin2 a b).data.getLast? = b.data.getLast? := by
  have he := pjoin2_eq a b hb2 ha ha2
  refine ⟨he, ?_, ?_⟩
  · rw [he]
    exact seg_ne_nil a b
  · rw [he]
    exact seg_getLast a b hb1

lemma pjoin6_eq (base s1 s2 s3 s4 s5 s6 : String)
    (hb1 : base.data ≠ []) (hb2 : base.data.getLast? ≠ some '/')
    (h11 : s1.data ≠ []) (h12 : s1.data.head? ≠ some '/') (h13 : s1.data.getLast? ≠ some '/')
    (h21 : s2.data ≠ []) (h22 : s2.data.head? ≠ some '/') (h23 : s2.data.getLast? ≠ some '/')
    (h31 : s3.data ≠ []) (h32 : s3.data.head? ≠ some '/') (h33 : s3.data.getLast? ≠ some '/')
    (h41 : s4.data ≠ []) (h42 : s4.data.head? ≠ some '/') (h43 : s4.data.getLast? ≠ some '/')
    (h51 : s5.data ≠ []) (h52 : s5.data.head? ≠ some '/') (h53 : s5.data.getLast? ≠ some '/')
    (h62 : s6.data.head? ≠ some '/') :
    pjoin2 (pjoin2 (pjoin2 (pjoin2 (pjoin2 (pjoin2 base s1) s2) s3) s4) s5) s6 =
      base ++ "/" ++ s1 ++ "/" ++ s2 ++ "/" ++ s3 ++ "/" ++ s4 ++ "/" ++ s5 ++ "/" ++ s6 := by
  obtain ⟨e1, n1, l1⟩ := pjoin2_tail base s1 hb1 hb2 h11 h12
  have l1b : (pjoin2 base s1).data.getLast? ≠ some '/' := by
    rw [l1]
    exact h13
  obtain ⟨e2, n2, l2⟩ := pjoin2_tail _ s2 n1 l1b h21 h22
  have l2b : (pjoin2 (pjoin2 base s1) s2).data.getLast? ≠ some '/' := by
    rw [l2]
    exact h23
  obtain ⟨e3, n3, l3⟩ := pjoin2_tail _ s3 n2 l2b h31 h32
  have l3b : (pjoin2 (pjoin2 (pjoin2 base s1) s2) s3).data.getLast? ≠ some '/' := by
    rw [l3]
    exact h33
  obtain ⟨e4, n4, l4⟩ := pjoin2_tail _ s4 n3 l3b h41 h42
  have l4b : (pjoin2 (pjoin2 (pjoin2 (pjoin2 base s1) s2) s3) s4).data.getLast? ≠ some '/' := by
    rw [l4]
    exact h43
  obtain ⟨e5, n5, l5⟩ := pjoin2_tail _ s5 n4 l4b h51 h52
  have l5b : (pjoin2 (pjoin2 (pjoin2 (pjoin2 (pjoin2 base s1) s2) s3) s4) s5).data.getLast?
      ≠ some '/' := by
    rw [l5]
    exact h53
  have e6 := pjoin2_eq _ s6 h62 n5 l5b
  rw [e6, e5, e4, e3, e2, e1]

end PathLemmas

section TableLemmas

variable {R : Type} [DecidableEq R]

lemma toPySet_of_nodup {l : List R} (h : l.Nodup) : toPySet l = l := by
  suffices hgen : ∀ (l2 : List R) (acc : List R), l2.Nodup → (∀ a ∈ l2, a ∉ acc) →
      l2.foldl setAdd acc = acc ++ l2 by
    simpa [toPySet] using hgen l [] h (by simp)
  intro l2
  induction l2 with
  | nil =>
    intro acc _ _
    simp
  | cons a t ih =>
    intro acc hnd hdisj
    rcases List.nodup_cons.mp hnd with ⟨hat, ht⟩
    have ha : a ∉ acc := hdisj a (by simp)
    rw [List.foldl_cons]
    have hset : setAdd acc a = acc ++ [a] := by
      simp [setAdd, ha]
    rw [hset, ih _ ht]
    · simp
    · intro x hx
      simp only [List.mem_append, List.mem_singleton]
      push_neg
      refine ⟨hdisj x (by simp [hx]), ?_⟩
      intro hxa
      subst hxa
      exact hat hx

lemma aggGo_none (benchmark : String) (k : String) (v : List R)
    (hbad : (pySplit k).length ≠ 2) :
    ∀ (l : List (String × List R)) (acc : List (String × Nat)), (k, v) ∈ l →
      aggGo benchmark acc l = none := by
  intro l
  induction l with
  | nil =>
    intro acc h
    simp at h
  | cons p rest ih =>
    intro acc h
    obtain ⟨pk, pv⟩ := p
    rcases List.mem_cons.mp h with h1 | h1
    · obtain ⟨hk, hv⟩ := (Prod.mk.injEq k v pk pv) ▸ h1
      subst hk
      subst hv
      rcases hs : pySplit k with _ | ⟨t1, _ | ⟨t2, _ | ⟨t3, ts⟩⟩⟩
      · simp [aggGo, hs]
      · simp [aggGo, hs]
      · exact absurd (by rw [hs]; rfl : (pySplit k).length = 2) hbad
      · simp [aggGo, hs]
    · rcases hs : pySplit pk with _ | ⟨t1, _ | ⟨t2, _ | ⟨t3, ts⟩⟩⟩
      · simp [aggGo, hs]
      · simp [aggGo, hs]
      · simp only [aggGo, hs]
        exact ih _ h1
      · simp [aggGo, hs]

lemma covDictGo_none (benchmark : String) (k : String) (v : List R)
    (hbad : (pySplit k).length ≠ 2) :
    ∀ (l : List (String × List R)) (acc : List (String × List R)), (k, v) ∈ l →
      covDictGo benchmark acc l = none := by
  intro l
  induction l with
  | nil =>
    intro acc h
    simp at h
  | cons p rest ih =>
    intro acc h
    obtain ⟨pk, pv⟩ := p
    rcases List.mem_cons.mp h with h1 | h1
    · obtain ⟨hk, hv⟩ := (Prod.mk.injEq k v pk pv) ▸ h1
      subst hk
      subst hv
      rcases hs : pySplit k with _ | ⟨t1, _ | ⟨t2, _ | ⟨t3, ts⟩⟩⟩
      · simp [covDictGo, hs]
      · simp [covDictGo, hs]
      · exact absurd (by rw [hs]; rfl : (pySplit k).length = 2) hbad
      · simp [covDictGo, hs]
    · rcases hs : pySplit pk with _ | ⟨t1, _ | ⟨t2, _ | ⟨t3, ts⟩⟩⟩
      · simp [covDictGo, hs]
      · simp [covDictGo, hs]
      · simp only [covDictGo, hs]
        exact ih _ h1
      · simp [covDictGo, hs]

lemma aggGo_eq (benchmark : String) :
    ∀ (l : List (String × List R)) (acc : List (String × Nat)),
      (∀ p ∈ l, (pySplit p.1).length = 2) →
      aggGo benchmark acc l = some (acc ++ l.filterMap (fun p =>
        match pySplit p.1 with
        | [f, bm] => if bm = benchmark then some (f, p.2.length) else none
        | _ => none)) := by
  intro l
  induction l with
  | nil =>
    intro acc _
    simp [aggGo]
  | cons p rest ih =>
    intro acc h
    obtain ⟨pk, pv⟩ := p
    have hp := h (pk, pv) (by simp)
    have hrest : ∀ q ∈ rest, (pySplit q.1).length = 2 :=
      fun q hq => h q (by simp [hq])
    rcases hs : pySplit pk with _ | ⟨t1, _ | ⟨t2, _ | ⟨t3, ts⟩⟩⟩
    · rw [hs] at hp
      simp at hp
    · rw [hs] at hp
      simp at hp
    · simp only [aggGo, hs, ih _ hrest, List.filterMap_cons]
      by_cases hb : t2 = benchmark
      · simp [hb, List.append_assoc]
      · simp [hb]
    · rw [hs] at hp
      simp at hp

end TableLemmas

section MoreHelpers

variable {R : Type} [DecidableEq R]

lemma sum_map_one {α : Type} (l : List α) : (l.map (fun _ => (1:Nat))).sum = l.length := by
  induction l with
  | nil => rfl
  | cons a t ih =>
    simp [ih]
    omega

lemma map_fst_pair_map {α β : Type} (l : List α) (g : α → β) :
    (l.map (fun x => (x, g x))).map Prod.fst = l := by
  induction l with
  | nil => rfl
  | cons a t ih => simp [ih]

end MoreHelpers

section ClaimTheorems

variable {R : Type} [DecidableEq R]

/-- C2: for every per-fuzzer region-set mapping (distinct fuzzer keys,
duplicate-free region sets, as Python dicts of sets guarantee), the
unique-region index built by `get_unique_region_dict` (threshold fixed at 1)
contains a region exactly when exactly one fuzzer's set covers it, mapped to
the list of fuzzers covering it; hence a region covered by exactly two fuzzers
is absent, and a region covered by exactly one is present with that single
owner. -/
theorem C2_unique_region_dict (d : List (String × List R)) (r : R)
    (hkeys : (d.map Prod.fst).Nodup) (hsets : ∀ p ∈ d, p.2.Nodup) :
    alookup r (get_unique_region_dict d) =
      if (coveringFuzzers d r).length = 1 then some (coveringFuzzers d r) else none :=
  unique_region_dict_lookup d r hsets

/-- Witness for C2 on the spec scenario afl covering regions 1 and 2,
libfuzzer covering 2 and 3: region 1 is indexed with single owner afl. -/
theorem C2_unique_region_dict_witness :
    ((([("afl", [1, 2]), ("libfuzzer", [2, 3])] : List (String × List Nat)).map
      Prod.fst).Nodup) ∧
    (∀ p ∈ ([("afl", [1, 2]), ("libfuzzer", [2, 3])] : List (String × List Nat)), p.2.Nodup) ∧
    alookup 1 (get_unique_region_dict
        ([("afl", [1, 2]), ("libfuzzer", [2, 3])] : List (String × List Nat))) =
      (if (coveringFuzzers ([("afl", [1, 2]), ("libfuzzer", [2, 3])] :
          List (String × List Nat)) 1).length = 1
        then some (coveringFuzzers ([("afl", [1, 2]), ("libfuzzer", [2, 3])] :
          List (String × List Nat)) 1) else none) :=
  ⟨by decide, by decide,
    C2_unique_region_dict [("afl", [1, 2]), ("libfuzzer", [2, 3])] 1 (by decide) (by decide)⟩

/-- C4: for every unique-region index with duplicate-free owner lists and
every caller-supplied fuzzer-name list, the table of `get_unique_region_cov_df`
has exactly one row per supplied name, in order, whose count is the number of
retained regions owned by that fuzzer; a fuzzer in no owner list gets 0. -/
theorem C4_unique_region_cov_df (urd : List (R × List String)) (names : List String)
    (hnodup : ∀ p ∈ urd, p.2.Nodup) :
    get_unique_region_cov_df urd names =
      names.map (fun f => (f, (urd.filter (fun p => decide (f ∈ p.2))).length)) := by
  rw [covdf_eq_map_countOcc]
  apply List.map_congr_left
  intro f _
  rw [countOcc_ownersConcat urd f hnodup]

/-- Witness for C4: fuzzer x appears in the list but owns no region and is
still reported, with count 0. -/
theorem C4_unique_region_cov_df_witness :
    (∀ p ∈ ([(1, ["afl"]), (3, ["libfuzzer"])] : List (Nat × List String)), p.2.Nodup) ∧
    get_unique_region_cov_df ([(1, ["afl"]), (3, ["libfuzzer"])] : List (Nat × List String))
        ["afl", "libfuzzer", "x"] =
      (["afl", "libfuzzer", "x"].map (fun f =>
        (f, (([(1, ["afl"]), (3, ["libfuzzer"])] : List (Nat × List String)).filter
          (fun p => decide (f ∈ p.2))).length))) :=
  ⟨by decide,
    C4_unique_region_cov_df [(1, ["afl"]), (3, ["libfuzzer"])] ["afl", "libfuzzer", "x"]
      (by decide)⟩

/-- C9: for a unique-region index built with threshold 1 and a duplicate-free
fuzzer-name list containing every owner in the index, the counts of
`get_unique_region_cov_df` sum to the number of regions in the index, because
every retained region has exactly one owner. -/
theorem C9_counts_sum_to_index_size (d : List (String × List R)) (names : List String)
    (hnd : names.Nodup)
    (hcover : ∀ p ∈ get_unique_region_dict d, ∀ f ∈ p.2, f ∈ names) :
    ((get_unique_region_cov_df (get_unique_region_dict d) names).map Prod.snd).sum =
      (get_unique_region_dict d).length := by
  have hlen1 : ∀ p ∈ get_unique_region_dict d, p.2.length = 1 := by
    intro p hp
    unfold get_unique_region_dict at hp
    rcases List.mem_filter.mp hp with ⟨hmem, hfil⟩
    have hne : p.2 ≠ [] := snd_ne_nil_buildRegionDict d p hmem
    have hle : p.2.length ≤ threshold_count := by simpa using hfil
    have hpos : 0 < p.2.length := List.length_pos.mpr hne
    unfold threshold_count at hle
    omega
  rw [covdf_eq_map_countOcc]
  have hmapsnd : ((names.map (fun f =>
      (f, countOcc f (ownersConcat (get_unique_region_dict d))))).map Prod.snd) =
      names.map (fun f => countOcc f (ownersConcat (get_unique_region_dict d))) := by
    simp [List.map_map]
  rw [hmapsnd]
  have hall : ∀ y ∈ ownersConcat (get_unique_region_dict d), y ∈ names := by
    intro y hy
    rcases mem_ownersConcat hy with ⟨p, hp, hyp⟩
    exact hcover p hp y hyp
  rw [sum_counts_eq_length hnd (ownersConcat (get_unique_region_dict d)) hall,
    length_ownersConcat]
  have hone : (get_unique_region_dict d).map (fun p => p.2.length) =
      (get_unique_region_dict d).map (fun _ => 1) := by
    apply List.map_congr_left
    intro p hp
    exact hlen1 p hp
  rw [hone, sum_map_one]

/-- Witness for C9 on the spec scenario: two unique regions, counts 1 + 1. -/
theorem C9_counts_sum_to_index_size_witness :
    (["afl", "libfuzzer"] : List String).Nodup ∧
    (∀ p ∈ get_unique_region_dict
        ([("afl", [1, 2]), ("libfuzzer", [2, 3])] : List (String × List Nat)),
      ∀ f ∈ p.2, f ∈ ["afl", "libfuzzer"]) ∧
    ((get_unique_region_cov_df
        (get_unique_region_dict
          ([("afl", [1, 2]), ("libfuzzer", [2, 3])] : List (String × List Nat)))
        ["afl", "libfuzzer"]).map Prod.snd).sum =
      (get_unique_region_dict
        ([("afl", [1, 2]), ("libfuzzer", [2, 3])] : List (String × List Nat))).length :=
  ⟨by decide, by decide,
    C9_counts_sum_to_index_size [("afl", [1, 2]), ("libfuzzer", [2, 3])] ["afl", "libfuzzer"]
      (by decide) (by decide)⟩

/-- C10: a coverage-dict key that does not split into exactly two
whitespace-delimited tokens makes both `get_benchmark_cov_dict` and
`get_benchmark_aggregated_cov_df` fail (the modelled `ValueError`), producing
no result instead of skipping the entry. -/
theorem C10_malformed_key (coverage_dict : List (String × List R)) (benchmark : String)
    (k : String) (v : List R) (hmem : (k, v) ∈ coverage_dict)
    (hbad : (pySplit k).length ≠ 2) :
    get_benchmark_cov_dict coverage_dict benchmark = none ∧
    get_benchmark_aggregated_cov_df coverage_dict benchmark = none :=
  ⟨covDictGo_none benchmark k v hbad coverage_dict [] hmem,
    aggGo_none benchmark k v hbad coverage_dict [] hmem⟩

/-- Witness for C10 with a one-token key. -/
theorem C10_malformed_key_witness :
    (("onlyonetoken", [0]) ∈ ([("onlyonetoken", [0])] : List (String × List Nat))) ∧
    (pySplit "onlyonetoken").length ≠ 2 ∧
    (get_benchmark_cov_dict ([("onlyonetoken", [0])] : List (String × List Nat)) "bench"
        = none ∧
      get_benchmark_aggregated_cov_df ([("onlyonetoken", [0])] : List (String × List Nat))
        "bench" = none) :=
  ⟨by decide, by decide,
    C10_malformed_key [("onlyonetoken", [0])] "bench" "onlyonetoken" [0] (by decide)
      (by decide)⟩

/-- C7 counterexample: the empty fuzzer name contains no whitespace, yet the
round trip fails: the key built from ("", "b") decodes to none (a
`ValueError` in the unpacking), not back to the pair. -/
theorem C7_counterexample :
    (∀ c ∈ ("" : String).data, isPySpace c = false) ∧
    (∀ c ∈ ("b" : String).data, isPySpace c = false) ∧
    decode_fuzzer_benchmark_key (get_fuzzer_benchmark_key "" "b") = none := by
  refine ⟨by decide, by decide, by decide⟩

/-- C7 (amended): for nonempty fuzzer and benchmark names that contain no
whitespace, `get_fuzzer_benchmark_key` produces `fuzzer ++ " " ++ benchmark`
and whitespace-split decoding recovers exactly the original pair. -/
theorem C7_key_roundtrip (f b : String) (hf : f.data ≠ []) (hb : b.data ≠ [])
    (hfw : ∀ c ∈ f.data, isPySpace c = false) (hbw : ∀ c ∈ b.data, isPySpace c = false) :
    get_fuzzer_benchmark_key f b = f ++ " " ++ b ∧
    decode_fuzzer_benchmark_key (get_fuzzer_benchmark_key f b) = some (f, b) := by
  refine ⟨rfl, ?_⟩
  unfold decode_fuzzer_benchmark_key get_fuzzer_benchmark_key
  rw [pySplit_key f b hf hb hfw hbw]

/-- Witness for the amended C7 at ("afl", "bench"). -/
theorem C7_key_roundtrip_witness :
    ("afl" : String).data ≠ [] ∧ ("bench" : String).data ≠ [] ∧
    (∀ c ∈ ("afl" : String).data, isPySpace c = false) ∧
    (∀ c ∈ ("bench" : String).data, isPySpace c = false) ∧
    (get_fuzzer_benchmark_key "afl" "bench" = "afl" ++ " " ++ "bench" ∧
      decode_fuzzer_benchmark_key (get_fuzzer_benchmark_key "afl" "bench")
        = some ("afl", "bench")) :=
  ⟨by decide, by decide, by decide, by decide,
    C7_key_roundtrip "afl" "bench" (by decide) (by decide) (by decide) (by decide)⟩

end ClaimTheorems

section ClaimTheoremsTwo

variable {R : Type} [DecidableEq R]

/-- C3 counterexample: with a duplicated raw region in the coverage dict, the
aggregated count reported by `get_benchmark_aggregated_cov_df` is the raw list
length 2, while the deduplicated region set built for the same fuzzer by
`get_benchmark_cov_dict` has cardinality 1 — so the claimed equality with the
deduplicated-set cardinality fails. -/
theorem C3_counterexample :
    get_benchmark_aggregated_cov_df ([("afl bench", [0, 0])] : List (String × List Nat))
        "bench" = some [("afl", 2)] ∧
    get_benchmark_cov_dict ([("afl bench", [0, 0])] : List (String × List Nat)) "bench"
      = some [("afl", [0])] :=
  ⟨by decide, by decide⟩

/-- C3 (amended): for every coverage dict whose keys split into exactly two
tokens, the aggregate table has one row per matching key, in order, whose
count is the length of that fuzzer's raw region list; when additionally each
raw region list has no duplicate regions (as the claim presupposes), this
count equals the cardinality of the deduplicated region set, and fuzzers with
empty region data still appear with count 0. -/
theorem C3_aggregated_cov_df (coverage_dict : List (String × List R)) (benchmark : String)
    (hsplit : ∀ p ∈ coverage_dict, (pySplit p.1).length = 2)
    (hnodup : ∀ p ∈ coverage_dict, p.2.Nodup) :
    get_benchmark_aggregated_cov_df coverage_dict benchmark =
      some (coverage_dict.filterMap (fun p =>
        match pySplit p.1 with
        | [f, bm] => if bm = benchmark then some (f, (toPySet p.2).length) else none
        | _ => none)) := by
  unfold get_benchmark_aggregated_cov_df
  rw [aggGo_eq benchmark coverage_dict [] hsplit]
  simp only [List.nil_append]
  congr 1
  apply List.filterMap_congr
  intro p hp
  have hps : (toPySet p.2).length = p.2.length := by
    rw [toPySet_of_nodup (hnodup p hp)]
  rw [hps]

/-- Witness for the amended C3: one fuzzer with two distinct regions, one with
empty region data reported as 0. -/
theorem C3_aggregated_cov_df_witness :
    (∀ p ∈ ([("afl bench", [1, 2]), ("libfuzzer bench", [])] : List (String × List Nat)),
      (pySplit p.1).length = 2) ∧
    (∀ p ∈ ([("afl bench", [1, 2]), ("libfuzzer bench", [])] : List (String × List Nat)),
      p.2.Nodup) ∧
    get_benchmark_aggregated_cov_df
        ([("afl bench", [1, 2]), ("libfuzzer bench", [])] : List (String × List Nat))
        "bench" =
      some (([("afl bench", [1, 2]), ("libfuzzer bench", [])] :
          List (String × List Nat)).filterMap (fun p =>
        match pySplit p.1 with
        | [f, bm] => if bm = "bench" then some (f, (toPySet p.2).length) else none
        | _ => none)) :=
  ⟨by decide, by decide,
    C3_aggregated_cov_df [("afl bench", [1, 2]), ("libfuzzer bench", [])] "bench"
      (by decide) (by decide)⟩

/-- C5: when the copy collaborator returns a non-zero status for the exact
source and destination paths the function computes, `get_fuzzer_covered_regions`
returns the empty region set (the embedding is total: no error can escape), and
the downstream aggregate count of that fuzzer for that benchmark is 0. -/
theorem C5_copy_failure (cp : String → String → Int) (readJson : String → List R)
    (fuzzer benchmark filestore temp_dir : String)
    (hfail : cp (covered_regions_src_file filestore benchmark fuzzer)
      (coverage_dst_file temp_dir fuzzer benchmark) ≠ 0)
    (hf : fuzzer.data ≠ []) (hb : benchmark.data ≠ [])
    (hfw : ∀ c ∈ fuzzer.data, isPySpace c = false)
    (hbw : ∀ c ∈ benchmark.data, isPySpace c = false) :
    get_fuzzer_covered_regions cp readJson fuzzer benchmark filestore temp_dir = [] ∧
    get_benchmark_aggregated_cov_df
      [(get_fuzzer_benchmark_key fuzzer benchmark,
        get_fuzzer_covered_regions cp readJson fuzzer benchmark filestore temp_dir)]
      benchmark = some [(fuzzer, 0)] := by
  have hempty : get_fuzzer_covered_regions cp readJson fuzzer benchmark filestore temp_dir
      = ([] : List R) := by
    unfold get_fuzzer_covered_regions
    rw [if_pos hfail]
  refine ⟨hempty, ?_⟩
  rw [hempty]
  have hsplit := pySplit_key fuzzer benchmark hf hb hfw hbw
  show aggGo benchmark [] [(get_fuzzer_benchmark_key fuzzer benchmark, [])] = some [(fuzzer, 0)]
  unfold get_fuzzer_benchmark_key
  simp only [aggGo, hsplit]
  simp [aggGo]

/-- Witness for C5 with a constantly failing copy operation. -/
theorem C5_copy_failure_witness :
    ((fun _ _ => (1:Int)) (covered_regions_src_file "gs://bucket/exp" "bench" "afl")
      (coverage_dst_file "/tmp" "afl" "bench") ≠ 0) ∧
    (get_fuzzer_covered_regions (fun _ _ => (1:Int)) (fun _ => ([5] : List Nat))
        "afl" "bench" "gs://bucket/exp" "/tmp" = [] ∧
      get_benchmark_aggregated_cov_df
        [(get_fuzzer_benchmark_key "afl" "bench",
          get_fuzzer_covered_regions (fun _ _ => (1:Int)) (fun _ => ([5] : List Nat))
            "afl" "bench" "gs://bucket/exp" "/tmp")]
        "bench" = some [("afl", 0)]) :=
  ⟨by decide,
    C5_copy_failure (fun _ _ => (1:Int)) (fun _ => ([5] : List Nat)) "afl" "bench"
      "gs://bucket/exp" "/tmp" (by decide) (by decide) (by decide) (by decide) (by decide)⟩

/-- C6 counterexample: fuzzer "b" appears in the supplied fuzzer list but not
in the aggregated mapping; the pairwise matrix builder fails with a KeyError
(modelled as none) instead of treating the missing set as empty, so the claim
is false as stated. -/
theorem C6_counterexample :
    ("b" ∈ ["a", "b"]) ∧
    alookup "b" ([("a", [0])] : List (String × List Nat)) = none ∧
    get_pairwise_unique_coverage_table ([("a", [0])] : List (String × List Nat)) ["a", "b"]
      = none :=
  ⟨by decide, by decide, by decide⟩

/-- C6 (amended): when a fuzzer of the supplied list is absent from the
aggregated mapping, the two builders diverge: `get_pairwise_unique_coverage_table`
fails with a KeyError (none), while `get_unique_region_cov_df` does default the
missing fuzzer to zero and still produces one row per supplied name, in order. -/
theorem C6_missing_fuzzer (d : List (String × List R)) (urd : List (R × List String))
    (names : List String) (f : String) (hf : f ∈ names)
    (hmiss : alookup f d = none) (hown : ∀ p ∈ urd, f ∉ p.2) :
    get_pairwise_unique_coverage_table d names = none ∧
    (get_unique_region_cov_df urd names).map Prod.fst = names ∧
    (f, 0) ∈ get_unique_region_cov_df urd names := by
  refine ⟨pairwise_table_none_of_missing d names f hf hmiss, ?_, ?_⟩
  · rw [covdf_eq_map_countOcc]
    exact map_fst_pair_map names _
  · rw [covdf_eq_map_countOcc]
    have hcnt : countOcc f (ownersConcat urd) = 0 := by
      apply countOcc_eq_zero
      intro hmem
      rcases mem_ownersConcat hmem with ⟨p, hp, hfp⟩
      exact hown p hp hfp
    refine List.mem_map.mpr ⟨f, hf, ?_⟩
    rw [hcnt]

/-- Witness for the amended C6: fuzzer "b" missing from the mapping and owning
no region. -/
theorem C6_missing_fuzzer_witness :
    ("b" ∈ ["a", "b"]) ∧
    alookup "b" ([("a", [0])] : List (String × List Nat)) = none ∧
    (∀ p ∈ ([(1, ["a"])] : List (Nat × List String)), "b" ∉ p.2) ∧
    (get_pairwise_unique_coverage_table ([("a", [0])] : List (String × List Nat)) ["a", "b"]
        = none ∧
      (get_unique_region_cov_df ([(1, ["a"])] : List (Nat × List String))
        ["a", "b"]).map Prod.fst = ["a", "b"] ∧
      ("b", 0) ∈ get_unique_region_cov_df ([(1, ["a"])] : List (Nat × List String))
        ["a", "b"]) :=
  ⟨by decide, by decide, by decide,
    C6_missing_fuzzer [("a", [0])] [(1, ["a"])] ["a", "b"] "b" (by decide) (by decide)
      (by decide)⟩

end ClaimTheoremsTwo

section ClaimTheoremsThree

variable {R : Type} [DecidableEq R]

/-- C1: for every benchmark coverage mapping containing a (duplicate-free)
region set for each listed fuzzer, the table of
`get_pairwise_unique_coverage_table` is produced, is square with both label
axes equal to the input fuzzer list in order, and its cell at (row i, col j)
is the cardinality of (column fuzzer's set minus row fuzzer's set); every
diagonal cell is 0. -/
theorem C1_pairwise_table (d : List (String × List R)) (fuzzers : List String)
    (hkeys : ∀ f ∈ fuzzers, (alookup f d).isSome)
    (hnodup : ∀ p ∈ d, p.2.Nodup) :
    ∃ t, get_pairwise_unique_coverage_table d fuzzers = some t ∧
      t.index = fuzzers ∧ t.columns = fuzzers ∧
      t.values.length = fuzzers.length ∧
      (∀ row ∈ t.values, row.length = fuzzers.length) ∧
      (∀ i j, i < fuzzers.length → j < fuzzers.length →
        ∀ A B, alookup (fuzzers.getD i "") d = some A →
          alookup (fuzzers.getD j "") d = some B →
          (t.values.getD i []).getD j 0 = (B.toFinset \ A.toFinset).card) ∧
      (∀ i, i < fuzzers.length → (t.values.getD i []).getD i 0 = 0) := by
  have hvals := pairwiseRows_eq_map d fuzzers hkeys fuzzers hkeys
  have hcell : ∀ i j, i < fuzzers.length → j < fuzzers.length →
      (((fuzzers.map (fun frow => fuzzers.map (fun fc =>
        get_unique_covered_percentage ((alookup frow d).getD [])
          ((alookup fc d).getD [])))).getD i []).getD j 0) =
      get_unique_covered_percentage ((alookup (fuzzers.getD i "") d).getD [])
        ((alookup (fuzzers.getD j "") d).getD []) := by
    intro i j hi hj
    rw [getD_map_lt fuzzers _ i "" ([] : List Nat) hi]
    rw [getD_map_lt fuzzers _ j "" (0 : Nat) hj]
  refine ⟨⟨fuzzers, fuzzers, fuzzers.map (fun frow => fuzzers.map (fun fc =>
    get_unique_covered_percentage ((alookup frow d).getD [])
      ((alookup fc d).getD [])))⟩, ?_, rfl, rfl, by simp, ?_, ?_, ?_⟩
  · unfold get_pairwise_unique_coverage_table
    rw [hvals]
    rfl
  · intro row hrow
    rcases List.mem_map.mp hrow with ⟨frow, _, hfrow⟩
    rw [← hfrow]
    simp
  · intro i j hi hj A B hA hB
    rw [hcell i j hi hj, hA, hB]
    simp only [Option.getD_some]
    have hBnd : B.Nodup := hnodup _ (alookup_mem hB)
    exact gucp_eq_sdiff_card A B hBnd
  · intro i hi
    rw [hcell i i hi hi]
    exact gucp_self _

/-- Witness for C1 on the spec scenario a covering 1 and 2, b covering 2 and 3. -/
theorem C1_pairwise_table_witness :
    (∀ f ∈ ["a", "b"],
      (alookup f ([("a", [1, 2]), ("b", [2, 3])] : List (String × List Nat))).isSome) ∧
    (∀ p ∈ ([("a", [1, 2]), ("b", [2, 3])] : List (String × List Nat)), p.2.Nodup) ∧
    (∃ t, get_pairwise_unique_coverage_table
        ([("a", [1, 2]), ("b", [2, 3])] : List (String × List Nat)) ["a", "b"] = some t ∧
      t.index = ["a", "b"] ∧ t.columns = ["a", "b"] ∧
      t.values.length = (["a", "b"] : List String).length ∧
      (∀ row ∈ t.values, row.length = (["a", "b"] : List String).length) ∧
      (∀ i j, i < (["a", "b"] : List String).length → j < (["a", "b"] : List String).length →
        ∀ A B, alookup ((["a", "b"] : List String).getD i "")
            ([("a", [1, 2]), ("b", [2, 3])] : List (String × List Nat)) = some A →
          alookup ((["a", "b"] : List String).getD j "")
            ([("a", [1, 2]), ("b", [2, 3])] : List (String × List Nat)) = some B →
          (t.values.getD i []).getD j 0 = (B.toFinset \ A.toFinset).card) ∧
      (∀ i, i < (["a", "b"] : List String).length → (t.values.getD i []).getD i 0 = 0)) :=
  ⟨by decide, by decide,
    C1_pairwise_table [("a", [1, 2]), ("b", [2, 3])] ["a", "b"] (by decide) (by decide)⟩

/-- C8: for path components that are well formed (the filestore root nonempty
and not ending in the separator; experiment, benchmark and fuzzer names
nonempty and neither starting nor ending with the separator), the retrieval
source path and the coverage-report link path are exactly the documented
layouts. -/
theorem C8_filestore_paths (filestore_root exp_name benchmark fuzzer : String)
    (hr1 : filestore_root.data ≠ []) (hr2 : filestore_root.data.getLast? ≠ some '/')
    (he1 : exp_name.data ≠ []) (he2 : exp_name.data.head? ≠ some '/')
    (he3 : exp_name.data.getLast? ≠ some '/')
    (hb1 : benchmark.data ≠ []) (hb2 : benchmark.data.head? ≠ some '/')
    (hb3 : benchmark.data.getLast? ≠ some '/')
    (hf1 : fuzzer.data ≠ []) (hf2 : fuzzer.data.head? ≠ some '/')
    (hf3 : fuzzer.data.getLast? ≠ some '/') :
    covered_regions_src_file (get_experiment_filestore_path filestore_root exp_name)
        benchmark fuzzer =
      filestore_root ++ "/" ++ exp_name ++ "/" ++ "coverage" ++ "/" ++ "data" ++ "/" ++
        benchmark ++ "/" ++ fuzzer ++ "/" ++ "covered_regions.json" ∧
    get_coverage_report_filestore_path filestore_root exp_name benchmark fuzzer =
      filestore_root ++ "/" ++ exp_name ++ "/" ++ "coverage" ++ "/" ++ "reports" ++ "/" ++
        benchmark ++ "/" ++ fuzzer ++ "/" ++ "index.html" :=
  ⟨pjoin6_eq filestore_root exp_name "coverage" "data" benchmark fuzzer
      "covered_regions.json" hr1 hr2 he1 he2 he3 (by decide) (by decide) (by decide)
      (by decide) (by decide) (by decide) hb1 hb2 hb3 hf1 hf2 hf3 (by decide),
    pjoin6_eq filestore_root exp_name "coverage" "reports" benchmark fuzzer
      "index.html" hr1 hr2 he1 he2 he3 (by decide) (by decide) (by decide)
      (by decide) (by decide) (by decide) hb1 hb2 hb3 hf1 hf2 hf3 (by decide)⟩

/-- Witness for C8 on concrete well-formed components. -/
theorem C8_filestore_paths_witness :
    ("gs://bucket" : String).data ≠ [] ∧
    ("gs://bucket" : String).data.getLast? ≠ some '/' ∧
    (covered_regions_src_file (get_experiment_filestore_path "gs://bucket" "exp1")
        "bench" "afl" =
      "gs://bucket" ++ "/" ++ "exp1" ++ "/" ++ "coverage" ++ "/" ++ "data" ++ "/" ++
        "bench" ++ "/" ++ "afl" ++ "/" ++ "covered_regions.json" ∧
      get_coverage_report_filestore_path "gs://bucket" "exp1" "bench" "afl" =
        "gs://bucket" ++ "/" ++ "exp1" ++ "/" ++ "coverage" ++ "/" ++ "reports" ++ "/" ++
          "bench" ++ "/" ++ "afl" ++ "/" ++ "index.html") :=
  ⟨by decide, by decide,
    C8_filestore_paths "gs://bucket" "exp1" "bench" "afl" (by decide) (by decide)
      (by decide) (by decide) (by decide) (by decide) (by decide) (by decide) (by decide)
      (by decide) (by decide)⟩

end ClaimTheoremsThree
